import Mathlib

/-!
Shallow embedding of the spectral-analysis kernel of minipiano (`src/fft.c`):
the reference transform `dft` and the recursive transform `fft`.

Modelling conventions:
* C `float` buffers become `List ℝ` (idealised real arithmetic).
* Every array read uses `List.get?` and every array store uses the checked
  `setC`; an out-of-bounds access (undefined behaviour in C) yields `none`.
* C stores a `complex float` value into a `float` lvalue by implicit
  conversion, which keeps the real part; this is modelled with `Complex.re`.
* The C `for` loops become tail-recursive loop functions indexed by the loop
  counter, mirroring the iteration order of the source.
-/

namespace Minifft

open Complex Finset

/-- The phase factor of the dft inner loop, `cexpf(-2 * I * PI * freq * t)`
with `t = (float) frame / n_frames` (src/fft.c, dft). -/
noncomputable def cexpTerm (freq frame n : ℕ) : ℂ :=
  Complex.exp (-2 * Complex.I * (Real.pi : ℂ) * (freq : ℂ) * ((frame : ℂ) / (n : ℂ)))

/-- The twiddle phase of the fft combine loop,
`cexp(-2.0 * I * PI * (float)i / (float)window)` (src/fft.c, fft). -/
noncomputable def twiddle (i window : ℕ) : ℂ :=
  Complex.exp (-2 * Complex.I * (Real.pi : ℂ) * (i : ℂ) / (window : ℂ))

/-- Checked array store: `l[i] = v`, `none` when the store is out of bounds. -/
def setC (l : List ℝ) (i : ℕ) (v : ℝ) : Option (List ℝ) :=
  if i < l.length then some (l.set i v) else none

/-- The even-index gathering loop of fft's split phase: `even[i] = in[2i]`. -/
def splitEven (inF : List ℝ) (half : ℕ) : Option (List ℝ) :=
  (List.range half).mapM fun i => inF.get? (2 * i)

/-- The odd-index gathering loop of fft's split phase: `odd[i] = in[2i+1]`. -/
def splitOdd (inF : List ℝ) (half : ℕ) : Option (List ℝ) :=
  (List.range half).mapM fun i => inF.get? (2 * i + 1)

/-- One iteration of fft's combine loop (src/fft.c lines 88-93):
`twiddle = cexp(...) * odd[i]; out[i] = even[i] + twiddle;
out[i + window/2] = even[i] - twiddle`. -/
noncomputable def combineStep (even odd : List ℝ) (window i : ℕ) (out : List ℝ) :
    Option (List ℝ) :=
  match even.get? i, odd.get? i with
  | some e, some o =>
    let tw : ℂ := twiddle i window * (o : ℂ)
    match setC out i (((e : ℂ) + tw).re) with
    | some out2 => setC out2 (i + window / 2) (((e : ℂ) - tw).re)
    | none => none
  | _, _ => none

/-- fft's combine loop, from counter value `i` up to `window / 2`. -/
noncomputable def combineLoop (even odd : List ℝ) (window i : ℕ) (out : List ℝ) :
    Option (List ℝ) :=
  if h : i < window / 2 then
    match combineStep even odd window i out with
    | some out2 => combineLoop even odd window (i + 1) out2
    | none => none
  else some out
termination_by window / 2 - i
decreasing_by omega

/-- The fft routine of src/fft.c: base case `window ≤ 1` returns without
writing; otherwise split into even/odd halves, recurse twice into the SAME
output buffer, then run the combine loop (which reads the raw halves). -/
noncomputable def fft (inF out : List ℝ) (window : ℕ) : Option (List ℝ) :=
  if window ≤ 1 then some out
  else
    match splitEven inF (window / 2), splitOdd inF (window / 2) with
    | some even, some odd =>
      match fft even out (window / 2) with
      | some out1 =>
        match fft odd out1 (window / 2) with
        | some out2 => combineLoop even odd window 0 out2
        | none => none
      | none => none
    | _, _ => none
termination_by window
decreasing_by all_goals omega

/-- dft's inner frame loop from counter `frame`, accumulating into
`out[freq]`: `out[freq] += in[frame] * cexpf(...)` (real lvalue, so each
step keeps the real part). -/
noncomputable def dftAccum (inF : List ℝ) (n freq frame : ℕ) (out : List ℝ) :
    Option (List ℝ) :=
  if h : frame < n then
    match inF.get? frame, out.get? freq with
    | some x, some acc =>
      match setC out freq (((acc : ℂ) + (x : ℂ) * cexpTerm freq frame n).re) with
      | some out2 => dftAccum inF n freq (frame + 1) out2
      | none => none
    | _, _ => none
  else some out
termination_by n - frame
decreasing_by omega

/-- dft's outer frequency loop from counter `freq`: `out[freq] = 0` then the
inner frame loop. -/
noncomputable def dftLoop (inF : List ℝ) (n freq : ℕ) (out : List ℝ) :
    Option (List ℝ) :=
  if h : freq < n then
    match setC out freq 0 with
    | some out1 =>
      match dftAccum inF n freq 0 out1 with
      | some out2 => dftLoop inF n (freq + 1) out2
      | none => none
    | none => none
  else some out
termination_by n - freq
decreasing_by omega

/-- The dft routine of src/fft.c. -/
noncomputable def dft (inF out : List ℝ) (n : ℕ) : Option (List ℝ) :=
  dftLoop inF n 0 out

/-- Call-tree depth of `fft` on a given window: 1 for the base case, otherwise
one more than the depth at the halved window, mirroring fft's recursion
`fft(even/odd, out, window / 2)`. -/
def fftDepth (window : ℕ) : ℕ :=
  if window ≤ 1 then 1 else fftDepth (window / 2) + 1
termination_by window
decreasing_by omega

/-- Frequency bin `k` of a transform result. -/
def bin (r : Option (List ℝ)) (k : ℕ) : Option ℝ :=
  r.bind fun l => l.get? k

/-! Basic list-access lemmas -/

lemma get?_eq_some_getD {l : List ℝ} {j : ℕ} (h : j < l.length) :
    l.get? j = some (l.getD j 0) := by
  induction l generalizing j with
  | nil => simp at h
  | cons a t ih =>
    cases j with
    | zero => simp [List.getD]
    | succ m =>
      have hm : m < t.length := by simpa using h
      simpa [List.getD] using ih hm

lemma setC_eq {l : List ℝ} {i : ℕ} (v : ℝ) (h : i < l.length) :
    setC l i v = some (l.set i v) := by
  simp [setC, h]

lemma mapM_get?_of_lt (l : List ℝ) (f : ℕ → ℕ) :
    ∀ idxs : List ℕ, (∀ j ∈ idxs, f j < l.length) →
      (idxs.mapM fun j => l.get? (f j)) = some (idxs.map fun j => l.getD (f j) 0) := by
  intro idxs
  induction idxs with
  | nil => intro _; rfl
  | cons a t ih =>
    intro hb
    have ha : f a < l.length := hb a (by simp)
    have ht : ∀ j ∈ t, f j < l.length := fun j hj => hb j (by simp [hj])
    rw [List.mapM_cons, get?_eq_some_getD ha, ih ht]
    rfl

/-- Closed form of the even half: the list `in[0], in[2], ...`. -/
def evenIdx (l : List ℝ) (half : ℕ) : List ℝ :=
  (List.range half).map fun i => l.getD (2 * i) 0

/-- Closed form of the odd half: the list `in[1], in[3], ...`. -/
def oddIdx (l : List ℝ) (half : ℕ) : List ℝ :=
  (List.range half).map fun i => l.getD (2 * i + 1) 0

lemma splitEven_eq {l : List ℝ} {half : ℕ} (h : 2 * half ≤ l.length) :
    splitEven l half = some (evenIdx l half) := by
  unfold splitEven evenIdx
  apply mapM_get?_of_lt
  intro j hj
  have hj2 := List.mem_range.mp hj
  omega

lemma splitOdd_eq {l : List ℝ} {half : ℕ} (h : 2 * half ≤ l.length) :
    splitOdd l half = some (oddIdx l half) := by
  unfold splitOdd oddIdx
  apply mapM_get?_of_lt
  intro j hj
  have hj2 := List.mem_range.mp hj
  omega

lemma evenIdx_length (l : List ℝ) (half : ℕ) : (evenIdx l half).length = half := by
  simp [evenIdx]

lemma oddIdx_length (l : List ℝ) (half : ℕ) : (oddIdx l half).length = half := by
  simp [oddIdx]

lemma evenIdx_getD {l : List ℝ} {half j : ℕ} (h : j < half) :
    (evenIdx l half).getD j 0 = l.getD (2 * j) 0 := by
  rw [List.getD_eq_getElem _ _ (by simpa [evenIdx] using h)]
  simp [evenIdx]

lemma oddIdx_getD {l : List ℝ} {half j : ℕ} (h : j < half) :
    (oddIdx l half).getD j 0 = l.getD (2 * j + 1) 0 := by
  rw [List.getD_eq_getElem _ _ (by simpa [oddIdx] using h)]
  simp [oddIdx]

/-! The combine loop -/

lemma combineStep_eq (even odd out : List ℝ) (window i : ℕ)
    (he : i < even.length) (ho : i < odd.length)
    (h1 : i < out.length) (h2 : i + window / 2 < out.length) :
    combineStep even odd window i out =
      some ((out.set i (((even.getD i 0 : ℂ) +
          twiddle i window * (odd.getD i 0 : ℂ)).re)).set (i + window / 2)
        (((even.getD i 0 : ℂ) - twiddle i window * (odd.getD i 0 : ℂ)).re)) := by
  have h2' : i + window / 2 < (out.set i (((even.getD i 0 : ℂ) +
      twiddle i window * (odd.getD i 0 : ℂ)).re)).length := by
    simpa using h2
  unfold combineStep
  rw [get?_eq_some_getD he, get?_eq_some_getD ho]
  dsimp only
  rw [setC_eq _ h1]
  dsimp only
  rw [setC_eq _ h2']

lemma combineLoop_term {even odd : List ℝ} {window i : ℕ}
    (h : ¬ i < window / 2) (out : List ℝ) :
    combineLoop even odd window i out = some out := by
  rw [combineLoop]
  simp [h]

lemma combineLoop_spec (even odd : List ℝ) (window : ℕ)
    (hev : even.length = window / 2) (hod : odd.length = window / 2) :
    ∀ d i out, window / 2 - i ≤ d → 2 * (window / 2) ≤ out.length →
      ∃ r, combineLoop even odd window i out = some r ∧ r.length = out.length ∧
        (∀ j, i ≤ j → j < window / 2 →
          r.get? j = some (((even.getD j 0 : ℂ) +
            twiddle j window * (odd.getD j 0 : ℂ)).re)) ∧
        (∀ j, i ≤ j → j < window / 2 →
          r.get? (j + window / 2) = some (((even.getD j 0 : ℂ) -
            twiddle j window * (odd.getD j 0 : ℂ)).re)) ∧
        (∀ j, j < i ∨ (window / 2 ≤ j ∧ j < window / 2 + i) ∨
            2 * (window / 2) ≤ j →
          r.get? j = out.get? j) := by
  intro d
  induction d with
  | zero =>
    intro i out hd _hout
    have hi : ¬ i < window / 2 := by omega
    exact ⟨out, combineLoop_term hi out, rfl,
      fun j h1 h2 => by omega, fun j h1 h2 => by omega, fun j _ => rfl⟩
  | succ d ih =>
    intro i out hd hout
    by_cases hi : i < window / 2
    · have hout1 : i < out.length := by omega
      have hout2 : i + window / 2 < out.length := by omega
      have hstep := combineStep_eq even odd out window i (by omega) (by omega)
        hout1 hout2
      set v1 := ((even.getD i 0 : ℂ) + twiddle i window * (odd.getD i 0 : ℂ)).re
        with hv1def
      set v2 := ((even.getD i 0 : ℂ) - twiddle i window * (odd.getD i 0 : ℂ)).re
        with hv2def
      set out3 := (out.set i v1).set (i + window / 2) v2 with hout3def
      have hlen3 : out3.length = out.length := by simp [hout3def]
      obtain ⟨r, hr, hrlen, hc1, hc2, hfr⟩ :=
        ih (i + 1) out3 (by omega) (by omega)
      have hmain : combineLoop even odd window i out = some r := by
        rw [combineLoop]
        simp only [dif_pos hi, hstep]
        exact hr
      refine ⟨r, hmain, by omega, ?_, ?_, ?_⟩
      · intro j hj1 hj2
        rcases Nat.eq_or_lt_of_le hj1 with hji | hji
        · subst hji
          have h4 : r.get? i = out3.get? i := hfr i (by omega)
          rw [h4, hout3def]
          rw [List.get?_set_ne _ _ (by omega)]
          rw [List.get?_set_eq_of_lt _ hout1, hv1def]
        · exact hc1 j (by omega) hj2
      · intro j hj1 hj2
        rcases Nat.eq_or_lt_of_le hj1 with hji | hji
        · subst hji
          have h4 : r.get? (i + window / 2) = out3.get? (i + window / 2) :=
            hfr (i + window / 2) (by omega)
          rw [h4, hout3def]
          rw [List.get?_set_eq_of_lt _ (by simpa using hout2), hv2def]
        · exact hc2 j (by omega) hj2
      · intro j hj
        have h3 : r.get? j = out3.get? j := hfr j (by omega)
        rw [h3, hout3def]
        rw [List.get?_set_ne _ _ (by omega), List.get?_set_ne _ _ (by omega)]
    · exact ⟨out, combineLoop_term hi out, rfl,
        fun j h1 h2 => by omega, fun j h1 h2 => by omega, fun j _ => rfl⟩

/-! Closed form of the whole fft call -/

lemma fft_spec (window : ℕ) :
    ∀ inF out : List ℝ, window ≤ inF.length → window ≤ out.length →
      ∃ r, fft inF out window = some r ∧ r.length = out.length ∧
        (window ≤ 1 → r = out) ∧
        (∀ j, j < window / 2 →
          r.get? j = some (((inF.getD (2 * j) 0 : ℂ) +
            twiddle j window * (inF.getD (2 * j + 1) 0 : ℂ)).re)) ∧
        (∀ j, j < window / 2 →
          r.get? (j + window / 2) = some (((inF.getD (2 * j) 0 : ℂ) -
            twiddle j window * (inF.getD (2 * j + 1) 0 : ℂ)).re)) ∧
        (∀ j, 2 * (window / 2) ≤ j → r.get? j = out.get? j) := by
  induction window using Nat.strong_induction_on with
  | _ window ih =>
    intro inF out hin hout
    by_cases hw : window ≤ 1
    · refine ⟨out, ?_, rfl, fun _ => rfl, ?_, ?_, fun j _ => rfl⟩
      · rw [fft, if_pos hw]
      · intro j hj; omega
      · intro j hj; omega
    · have hhalf : 2 * (window / 2) ≤ inF.length := by omega
      have hse := splitEven_eq hhalf
      have hso := splitOdd_eq hhalf
      obtain ⟨r1, hr1, hr1len, -, -, -, hfr1⟩ :=
        ih (window / 2) (by omega) (evenIdx inF (window / 2)) out
          (by rw [evenIdx_length]) (by omega)
      obtain ⟨r2, hr2, hr2len, -, -, -, hfr2⟩ :=
        ih (window / 2) (by omega) (oddIdx inF (window / 2)) r1
          (by rw [oddIdx_length]) (by omega)
      obtain ⟨r, hcl, hcllen, hc1, hc2, hcfr⟩ :=
        combineLoop_spec (evenIdx inF (window / 2)) (oddIdx inF (window / 2))
          window (evenIdx_length _ _) (oddIdx_length _ _) (window / 2) 0 r2
          (by omega) (by omega)
      have hmain : fft inF out window = some r := by
        rw [fft, if_neg hw, hse, hso]
        dsimp only
        rw [hr1]
        dsimp only
        rw [hr2]
        dsimp only
        exact hcl
      refine ⟨r, hmain, by omega, fun h => absurd h hw, ?_, ?_, ?_⟩
      · intro j hj
        have h5 := hc1 j (Nat.zero_le j) hj
        rw [evenIdx_getD hj, oddIdx_getD hj] at h5
        exact h5
      · intro j hj
        have h5 := hc2 j (Nat.zero_le j) hj
        rw [evenIdx_getD hj, oddIdx_getD hj] at h5
        exact h5
      · intro j hj
        rw [hcfr j (by omega), hfr2 j (by omega), hfr1 j (by omega)]

/-! Closed form of the dft loops -/

lemma dftAccum_term {inF : List ℝ} {n freq frame : ℕ} (h : ¬ frame < n)
    (out : List ℝ) : dftAccum inF n freq frame out = some out := by
  rw [dftAccum]
  simp [h]

lemma dftAccum_spec (inF : List ℝ) (n freq : ℕ) (hn : n ≤ inF.length) :
    ∀ d frame out, n - frame ≤ d → freq < out.length →
      ∃ r, dftAccum inF n freq frame out = some r ∧ r.length = out.length ∧
        r.get? freq = some (out.getD freq 0 +
          ∑ t in Finset.Ico frame n, ((inF.getD t 0 : ℂ) * cexpTerm freq t n).re) ∧
        (∀ j, j ≠ freq → r.get? j = out.get? j) := by
  intro d
  induction d with
  | zero =>
    intro frame out hd hf
    have hfr : ¬ frame < n := by omega
    refine ⟨out, dftAccum_term hfr out, rfl, ?_, fun j _ => rfl⟩
    rw [Finset.Ico_eq_empty (by omega), Finset.sum_empty, add_zero]
    exact get?_eq_some_getD hf
  | succ d ihd =>
    intro frame out hd hf
    by_cases hfr : frame < n
    · have hx : frame < inF.length := by omega
      set v := (((out.getD freq 0 : ℝ) : ℂ) +
        (inF.getD frame 0 : ℂ) * cexpTerm freq frame n).re with hvdef
      have hstep : dftAccum inF n freq frame out =
          dftAccum inF n freq (frame + 1) (out.set freq v) := by
        rw [dftAccum, dif_pos hfr, get?_eq_some_getD hx, get?_eq_some_getD hf]
        dsimp only
        rw [setC_eq _ hf]
      obtain ⟨r, hr, hrlen, hval, hfrj⟩ :=
        ihd (frame + 1) (out.set freq v) (by omega) (by simpa using hf)
      refine ⟨r, by rw [hstep]; exact hr, by simpa using hrlen, ?_, ?_⟩
      · have hg : (out.set freq v).getD freq 0 = v := by
          rw [List.getD_eq_getD_get?, List.get?_set_eq_of_lt _ hf]
          rfl
        rw [hval, hg, Finset.sum_eq_sum_Ico_succ_bot hfr]
        simp only [hvdef, Complex.add_re, Complex.ofReal_re]
        rw [add_assoc]
      · intro j hj
        rw [hfrj j hj, List.get?_set_ne _ _ (Ne.symm hj)]
    · exact ⟨out, dftAccum_term hfr out, rfl, by
        rw [Finset.Ico_eq_empty (by omega), Finset.sum_empty, add_zero]
        exact get?_eq_some_getD hf, fun j _ => rfl⟩

lemma dftLoop_term {inF : List ℝ} {n freq : ℕ} (h : ¬ freq < n)
    (out : List ℝ) : dftLoop inF n freq out = some out := by
  rw [dftLoop]
  simp [h]

lemma dftLoop_spec (inF : List ℝ) (n : ℕ) (hn : n ≤ inF.length) :
    ∀ d freq out, n - freq ≤ d → n ≤ out.length →
      ∃ r, dftLoop inF n freq out = some r ∧ r.length = out.length ∧
        (∀ k, freq ≤ k → k < n →
          r.get? k = some (∑ t in Finset.range n,
            ((inF.getD t 0 : ℂ) * cexpTerm k t n).re)) ∧
        (∀ k, k < freq ∨ n ≤ k → r.get? k = out.get? k) := by
  intro d
  induction d with
  | zero =>
    intro freq out hd hlen
    have h1 : ¬ freq < n := by omega
    exact ⟨out, dftLoop_term h1 out, rfl, fun k hk1 hk2 => by omega,
      fun k _ => rfl⟩
  | succ d ihd =>
    intro freq out hd hlen
    by_cases h1 : freq < n
    · have hf : freq < out.length := by omega
      have hsl : (out.set freq 0).length = out.length := by simp
      obtain ⟨r2, hr2, hr2len, hr2val, hr2fr⟩ :=
        dftAccum_spec inF n freq hn n 0 (out.set freq 0) (by omega)
          (by simpa using hf)
      obtain ⟨r, hr, hrlen, hval, hfr⟩ := ihd (freq + 1) r2 (by omega) (by omega)
      have hmain : dftLoop inF n freq out = some r := by
        rw [dftLoop, dif_pos h1, setC_eq _ hf]
        dsimp only
        rw [hr2]
        dsimp only
        exact hr
      refine ⟨r, hmain, by omega, ?_, ?_⟩
      · intro k hk1 hk2
        rcases Nat.eq_or_lt_of_le hk1 with hke | hke
        · subst hke
          rw [hfr freq (by omega), hr2val]
          have hg : (out.set freq 0).getD freq 0 = 0 := by
            rw [List.getD_eq_getD_get?, List.get?_set_eq_of_lt _ hf]
            rfl
          rw [hg, zero_add, Finset.range_eq_Ico]
        · exact hval k (by omega) hk2
      · intro k hk
        rw [hfr k (by omega), hr2fr k (by omega),
          List.get?_set_ne _ _ (by omega)]
    · exact ⟨out, dftLoop_term h1 out, rfl, fun k hk1 hk2 => by omega,
        fun k _ => rfl⟩

lemma dft_spec (inF out : List ℝ) (n : ℕ) (hin : n ≤ inF.length)
    (hout : n ≤ out.length) :
    ∃ r, dft inF out n = some r ∧ r.length = out.length ∧
      (∀ k, k < n → r.get? k = some ((∑ t in Finset.range n,
        (inF.getD t 0 : ℂ) * cexpTerm k t n).re)) ∧
      (∀ k, n ≤ k → r.get? k = out.get? k) := by
  obtain ⟨r, hr, hrlen, hval, hfr⟩ := dftLoop_spec inF n hin n 0 out (by omega) hout
  refine ⟨r, hr, hrlen, ?_, fun k hk => hfr k (Or.inr hk)⟩
  intro k hk
  rw [hval k (Nat.zero_le k) hk, Complex.re_sum]

/-! Phase-factor evaluations and bin access -/

lemma bin_eq {o : Option (List ℝ)} {l : List ℝ} (h : o = some l) (k : ℕ) :
    bin o k = l.get? k := by
  rw [bin, h]
  rfl

lemma twiddle_zero (window : ℕ) : twiddle 0 window = 1 := by
  simp [twiddle]

lemma cexpTerm_freq_zero (frame n : ℕ) : cexpTerm 0 frame n = 1 := by
  simp [cexpTerm]

/-! Claim theorems -/

/-- C10: for every window (power of two or not) and buffers at least `window`
long, fft never accesses out of range (it returns `some` result rather than
the `none` of a failed access), and no output element at index `≥ window` is
modified. -/
theorem fft_memory_safe (inF out : List ℝ) (window : ℕ)
    (hin : window ≤ inF.length) (hout : window ≤ out.length) :
    ∃ r, fft inF out window = some r ∧ r.length = out.length ∧
      ∀ k, window ≤ k → r.get? k = out.get? k := by
  obtain ⟨r, hr, hlen, -, -, -, hfr⟩ := fft_spec window inF out hin hout
  exact ⟨r, hr, hlen, fun k hk => hfr k (by omega)⟩

/-- Witness for C10 at the non-power-of-two window 3. -/
theorem fft_memory_safe_witness :
    ∃ r, fft [(1 : ℝ), 2, 3] [(4 : ℝ), 5, 6, 7] 3 = some r ∧
      r.length = ([(4 : ℝ), 5, 6, 7]).length ∧
      ∀ k, 3 ≤ k → r.get? k = ([(4 : ℝ), 5, 6, 7]).get? k :=
  fft_memory_safe [(1 : ℝ), 2, 3] [(4 : ℝ), 5, 6, 7] 3 (by simp) (by simp)

/-- C6: for `window ≤ 1` the fft call returns without writing anything:
the output buffer is exactly the one passed in. -/
theorem fft_small_window_no_write (inF out : List ℝ) (window : ℕ)
    (h : window ≤ 1) : fft inF out window = some out := by
  rw [fft, if_pos h]

/-- Witness for C6 at `window = 0`. -/
theorem fft_small_window_no_write_witness :
    fft [(2 : ℝ)] [(7 : ℝ), (8 : ℝ)] 0 = some [(7 : ℝ), (8 : ℝ)] :=
  fft_small_window_no_write [(2 : ℝ)] [(7 : ℝ), (8 : ℝ)] 0 (by norm_num)

/-- C3: for `window ≥ 2` the final content of the output buffer is one
butterfly stage over the raw input: `out[i] = Re(in[2i] + tw_i·in[2i+1])` and
`out[i + window/2] = Re(in[2i] - tw_i·in[2i+1])`; everything the recursive
calls wrote is overwritten, and bins at index `≥ 2·(window/2)` keep their
prior contents. -/
theorem fft_result_is_single_butterfly (inF out : List ℝ) (window : ℕ)
    (h2 : 2 ≤ window) (hin : window ≤ inF.length) (hout : window ≤ out.length) :
    (∀ i, i < window / 2 →
      bin (fft inF out window) i = some (((inF.getD (2 * i) 0 : ℂ) +
        twiddle i window * (inF.getD (2 * i + 1) 0 : ℂ)).re) ∧
      bin (fft inF out window) (i + window / 2) =
        some (((inF.getD (2 * i) 0 : ℂ) -
          twiddle i window * (inF.getD (2 * i + 1) 0 : ℂ)).re)) ∧
    (∀ k, 2 * (window / 2) ≤ k → bin (fft inF out window) k = out.get? k) := by
  obtain ⟨r, hr, -, -, hv1, hv2, hfr⟩ := fft_spec window inF out hin hout
  refine ⟨fun i hi => ⟨?_, ?_⟩, fun k hk => ?_⟩
  · rw [bin_eq hr]
    exact hv1 i hi
  · rw [bin_eq hr]
    exact hv2 i hi
  · rw [bin_eq hr]
    exact hfr k hk

/-- Witness for C3 at `window = 2`, input `(3, 5)`, zeroed output. -/
theorem fft_result_is_single_butterfly_witness :
    (∀ i, i < 2 / 2 →
      bin (fft [(3 : ℝ), 5] [0, 0] 2) i =
        some (((([(3 : ℝ), 5]).getD (2 * i) 0 : ℂ) +
          twiddle i 2 * (([(3 : ℝ), 5]).getD (2 * i + 1) 0 : ℂ)).re) ∧
      bin (fft [(3 : ℝ), 5] [0, 0] 2) (i + 2 / 2) =
        some (((([(3 : ℝ), 5]).getD (2 * i) 0 : ℂ) -
          twiddle i 2 * (([(3 : ℝ), 5]).getD (2 * i + 1) 0 : ℂ)).re)) ∧
    (∀ k, 2 * (2 / 2) ≤ k →
      bin (fft [(3 : ℝ), 5] [0, 0] 2) k = ([(0 : ℝ), 0]).get? k) :=
  fft_result_is_single_butterfly [(3 : ℝ), 5] [0, 0] 2 (by norm_num) (by simp)
    (by simp)

/-- C4 counterexample: with window 1, input `(3)` and prior output `(5)`, the
returned buffer holds 5, not the input sample 3. -/
theorem fft_length_one_counterexample :
    fft [(3 : ℝ)] [(5 : ℝ)] 1 = some [(5 : ℝ)] ∧
    bin (fft [(3 : ℝ)] [(5 : ℝ)] 1) 0 ≠ some (3 : ℝ) := by
  have h : fft [(3 : ℝ)] [(5 : ℝ)] 1 = some [(5 : ℝ)] := by
    rw [fft, if_pos (by norm_num)]
  refine ⟨h, ?_⟩
  rw [bin_eq h]
  intro hc
  have h5 : (5 : ℝ) = 3 := by simpa using hc
  norm_num at h5

/-- C4 amended: fft on a single-sample input with `window = 1` returns
without writing, so the output buffer keeps its prior contents (they equal
the input sample only if the caller pre-populated them). -/
theorem fft_length_one_keeps_output (x : ℝ) (out : List ℝ) :
    fft [x] out 1 = some out := by
  rw [fft, if_pos (by norm_num)]

/-- C5: dft writes into every bin `freq < n` the real projection of
`Σ_{t<n} in[t]·exp(-2πi·freq·t/n)`, and for `n = 0` it is a no-op. -/
theorem dft_bins_are_fourier_sums (inF out : List ℝ) (n : ℕ)
    (hin : n ≤ inF.length) (hout : n ≤ out.length) :
    (∀ k, k < n → bin (dft inF out n) k =
      some ((∑ t in Finset.range n, (inF.getD t 0 : ℂ) * cexpTerm k t n).re)) ∧
    dft inF out 0 = some out := by
  obtain ⟨r, hr, -, hval, -⟩ := dft_spec inF out n hin hout
  refine ⟨fun k hk => ?_, ?_⟩
  · rw [bin_eq hr]
    exact hval k hk
  · show dftLoop inF 0 0 out = some out
    exact dftLoop_term (by omega) out

/-- Witness for C5 at `n = 1`, input `(2)`. -/
theorem dft_bins_are_fourier_sums_witness :
    (∀ k, k < 1 → bin (dft [(2 : ℝ)] [(0 : ℝ)] 1) k =
      some ((∑ t in Finset.range 1,
        (([(2 : ℝ)]).getD t 0 : ℂ) * cexpTerm k t 1).re)) ∧
    dft [(2 : ℝ)] [(0 : ℝ)] 0 = some [(0 : ℝ)] :=
  dft_bins_are_fourier_sums [(2 : ℝ)] [(0 : ℝ)] 1 (by simp) (by simp)

/-- C9: the call-tree depth of fft on a power-of-two window `2^k` is exactly
`k + 1 = log₂(window) + 1`: each recursive call halves the window until the
`window ≤ 1` base case is reached. -/
theorem fftDepth_power_of_two (k : ℕ) : fftDepth (2 ^ k) = k + 1 := by
  induction k with
  | zero =>
    rw [pow_zero, fftDepth, if_pos (by norm_num)]
  | succ k ihk =>
    have h1 : ¬ 2 ^ (k + 1) ≤ 1 := by
      have h2 : 0 < 2 ^ k := pow_pos (by norm_num) k
      rw [pow_succ]
      omega
    have hdiv : 2 ^ (k + 1) / 2 = 2 ^ k := by
      rw [pow_succ]
      exact Nat.mul_div_cancel _ (by norm_num)
    rw [fftDepth, if_neg h1, hdiv, ihk]

/-- C1 (failing input): at the power-of-two length `n = 4` with input
`(0, 0, 1, 0)` and zeroed outputs, dft puts 1 in bin 0 while fft puts 0
there — the two transforms do not agree bin-by-bin. -/
theorem fft_dft_disagree_at_n4 :
    bin (dft [(0 : ℝ), 0, 1, 0] [0, 0, 0, 0] 4) 0 = some 1 ∧
    bin (fft [(0 : ℝ), 0, 1, 0] [0, 0, 0, 0] 4) 0 = some 0 ∧
    bin (fft [(0 : ℝ), 0, 1, 0] [0, 0, 0, 0] 4) 0 ≠
      bin (dft [(0 : ℝ), 0, 1, 0] [0, 0, 0, 0] 4) 0 := by
  obtain ⟨rd, hrd, -, hvald, -⟩ :=
    dft_spec [(0 : ℝ), 0, 1, 0] [0, 0, 0, 0] 4 (by simp) (by simp)
  obtain ⟨rf, hrf, -, -, hv1, -, -⟩ :=
    fft_spec 4 [(0 : ℝ), 0, 1, 0] [0, 0, 0, 0] (by simp) (by simp)
  have hd : bin (dft [(0 : ℝ), 0, 1, 0] [0, 0, 0, 0] 4) 0 = some 1 := by
    rw [bin_eq hrd, hvald 0 (by norm_num)]
    congr 1
    rw [Finset.sum_range_succ, Finset.sum_range_succ, Finset.sum_range_succ,
      Finset.sum_range_one]
    simp [cexpTerm_freq_zero]
  have hf : bin (fft [(0 : ℝ), 0, 1, 0] [0, 0, 0, 0] 4) 0 = some 0 := by
    rw [bin_eq hrf, hv1 0 (by norm_num)]
    norm_num
  refine ⟨hd, hf, ?_⟩
  rw [hd, hf]
  intro hc
  have h01 : (0 : ℝ) = 1 := by simpa using hc
  norm_num at h01

/-- C2 (failing input): at window 4 with input `(0, 0, 1, 0)`, the combine
step uses the raw halves, so bin 0 of the full call is 0; the spec's
butterfly over the recursively transformed halves (whose fft really does put
1 in even-half bin 0 and 0 in odd-half bin 0) would give
`1 + Re(twiddle·0) = 1`. -/
theorem fft_combine_ignores_recursive_results :
    bin (fft [(0 : ℝ), 0, 1, 0] [0, 0, 0, 0] 4) 0 = some 0 ∧
    bin (fft [(0 : ℝ), 1] [0, 0] 2) 0 = some 1 ∧
    bin (fft [(0 : ℝ), 0] [0, 0] 2) 0 = some 0 ∧
    (0 : ℝ) ≠ 1 + (twiddle 0 4 * ((0 : ℝ) : ℂ)).re := by
  obtain ⟨rf, hrf, -, -, hv1, -, -⟩ :=
    fft_spec 4 [(0 : ℝ), 0, 1, 0] [0, 0, 0, 0] (by simp) (by simp)
  obtain ⟨re1, hre1, -, -, hev1, -, -⟩ :=
    fft_spec 2 [(0 : ℝ), 1] [0, 0] (by simp) (by simp)
  obtain ⟨ro1, hro1, -, -, hov1, -, -⟩ :=
    fft_spec 2 [(0 : ℝ), 0] [0, 0] (by simp) (by simp)
  refine ⟨?_, ?_, ?_, ?_⟩
  · rw [bin_eq hrf, hv1 0 (by norm_num)]
    norm_num
  · rw [bin_eq hre1, hev1 0 (by norm_num)]
    rw [twiddle_zero]
    norm_num
  · rw [bin_eq hro1, hov1 0 (by norm_num)]
    norm_num
  · simp

/-- C8 (failing input): the all-ones input of length 4 concentrates all dft
energy in bin 0 with value `1·4`, but fft's bin 0 is 2, not `c·n = 4`. -/
theorem fft_dc_input_wrong_at_n4 :
    bin (dft [(1 : ℝ), 1, 1, 1] [0, 0, 0, 0] 4) 0 = some ((1 : ℝ) * 4) ∧
    bin (fft [(1 : ℝ), 1, 1, 1] [0, 0, 0, 0] 4) 0 = some 2 ∧
    (2 : ℝ) ≠ (1 : ℝ) * 4 := by
  obtain ⟨rd, hrd, -, hvald, -⟩ :=
    dft_spec [(1 : ℝ), 1, 1, 1] [0, 0, 0, 0] 4 (by simp) (by simp)
  obtain ⟨rf, hrf, -, -, hv1, -, -⟩ :=
    fft_spec 4 [(1 : ℝ), 1, 1, 1] [0, 0, 0, 0] (by simp) (by simp)
  refine ⟨?_, ?_, by norm_num⟩
  · rw [bin_eq hrd, hvald 0 (by norm_num)]
    congr 1
    rw [Finset.sum_range_succ, Finset.sum_range_succ, Finset.sum_range_succ,
      Finset.sum_range_one]
    simp [cexpTerm_freq_zero]
    norm_num
  · rw [bin_eq hrf, hv1 0 (by norm_num)]
    rw [twiddle_zero]
    norm_num

/-- C7: both transforms are linear (exactly, over the idealised reals): on
zero-initialised output buffers, transforming `a·x + b·y` gives, bin by bin,
`a·transform(x) + b·transform(y)`; for fft the length is a power of two. -/
theorem transforms_linear (a b : ℝ) (x y : List ℝ) (n : ℕ)
    (hx : x.length = n) (hy : y.length = n) :
    (∀ k, bin (dft (List.zipWith (fun u v => a * u + b * v) x y)
        (List.replicate n 0) n) k =
      Option.map₂ (fun p q => a * p + b * q)
        (bin (dft x (List.replicate n 0) n) k)
        (bin (dft y (List.replicate n 0) n) k)) ∧
    (∀ m, n = 2 ^ m → ∀ k,
      bin (fft (List.zipWith (fun u v => a * u + b * v) x y)
          (List.replicate n 0) n) k =
      Option.map₂ (fun p q => a * p + b * q)
        (bin (fft x (List.replicate n 0) n) k)
        (bin (fft y (List.replicate n 0) n) k)) := by
  set z := List.zipWith (fun u v => a * u + b * v) x y with hzdef
  have hzlen : z.length = n := by
    rw [hzdef, List.length_zipWith]
    omega
  have hrep : (List.replicate n (0 : ℝ)).length = n := by simp
  have hzget : ∀ t, t < n → z.getD t 0 = a * x.getD t 0 + b * y.getD t 0 := by
    intro t ht
    rw [hzdef, List.getD_eq_getElem _ _ (by rw [List.length_zipWith]; omega),
      List.getElem_zipWith, List.getD_eq_getElem _ _ (by omega),
      List.getD_eq_getElem _ _ (by omega)]
  refine ⟨fun k => ?_, fun m hm k => ?_⟩
  · obtain ⟨rz, hrz, -, hvz, hfz⟩ :=
      dft_spec z (List.replicate n 0) n (by omega) (by omega)
    obtain ⟨rx, hrx, -, hvx, hfx⟩ :=
      dft_spec x (List.replicate n 0) n (by omega) (by omega)
    obtain ⟨ry, hry, -, hvy, hfy⟩ :=
      dft_spec y (List.replicate n 0) n (by omega) (by omega)
    by_cases hk : k < n
    · rw [bin_eq hrz, bin_eq hrx, bin_eq hry, hvz k hk, hvx k hk, hvy k hk,
        Option.map₂_some_some]
      congr 1
      rw [Complex.re_sum, Complex.re_sum, Complex.re_sum, Finset.mul_sum,
        Finset.mul_sum, ← Finset.sum_add_distrib]
      apply Finset.sum_congr rfl
      intro t ht
      have ht2 : t < n := Finset.mem_range.mp ht
      rw [hzget t ht2]
      push_cast
      rw [add_mul, Complex.add_re, mul_assoc, mul_assoc]
      simp [Complex.re_ofReal_mul]
    · have hnone : (List.replicate n (0 : ℝ)).get? k = none :=
        List.get?_eq_none.mpr (by simp; omega)
      rw [bin_eq hrz, bin_eq hrx, bin_eq hry, hfz k (by omega),
        hfx k (by omega), hfy k (by omega), hnone]
      rfl
  · by_cases hn1 : n ≤ 1
    · have hz1 : fft z (List.replicate n 0) n = some (List.replicate n 0) := by
        rw [fft, if_pos hn1]
      have hx1 : fft x (List.replicate n 0) n = some (List.replicate n 0) := by
        rw [fft, if_pos hn1]
      have hy1 : fft y (List.replicate n 0) n = some (List.replicate n 0) := by
        rw [fft, if_pos hn1]
      rw [bin_eq hz1, bin_eq hx1, bin_eq hy1]
      by_cases hk : k < n
      · have hsome : (List.replicate n (0 : ℝ)).get? k = some 0 := by
          rw [get?_eq_some_getD (by simpa using hk)]
          congr 1
          rw [List.getD_eq_getElem _ _ (by simpa using hk),
            List.getElem_replicate]
        rw [hsome, Option.map₂_some_some]
        norm_num
      · have hnone : (List.replicate n (0 : ℝ)).get? k = none :=
          List.get?_eq_none.mpr (by simp; omega)
        rw [hnone]
        rfl
    · have hev : 2 * (n / 2) = n := by
        rcases m with _ | m0
        · rw [pow_zero] at hm
          omega
        · have h2n : n = 2 ^ m0 * 2 := by rw [hm, pow_succ]
          omega
      obtain ⟨rz, hrz2, -, -, hzv1, hzv2, hzfr⟩ :=
        fft_spec n z (List.replicate n 0) (by omega) (by omega)
      obtain ⟨rx, hrx2, -, -, hxv1, hxv2, hxfr⟩ :=
        fft_spec n x (List.replicate n 0) (by omega) (by omega)
      obtain ⟨ry, hry2, -, -, hyv1, hyv2, hyfr⟩ :=
        fft_spec n y (List.replicate n 0) (by omega) (by omega)
      rcases Nat.lt_or_ge k (n / 2) with hk1 | hk1
      · rw [bin_eq hrz2, bin_eq hrx2, bin_eq hry2, hzv1 k hk1, hxv1 k hk1,
          hyv1 k hk1, Option.map₂_some_some]
        congr 1
        rw [hzget (2 * k) (by omega), hzget (2 * k + 1) (by omega)]
        simp only [Complex.add_re, Complex.mul_re, Complex.ofReal_re,
          Complex.ofReal_im]
        ring
      · rcases Nat.lt_or_ge k n with hk2 | hk2
        · have hj : k - n / 2 < n / 2 := by omega
          have hkk : k = (k - n / 2) + n / 2 := by omega
          rw [bin_eq hrz2, bin_eq hrx2, bin_eq hry2, hkk, hzv2 _ hj,
            hxv2 _ hj, hyv2 _ hj, Option.map₂_some_some]
          congr 1
          rw [hzget (2 * (k - n / 2)) (by omega),
            hzget (2 * (k - n / 2) + 1) (by omega)]
          simp only [Complex.sub_re, Complex.mul_re, Complex.ofReal_re,
            Complex.ofReal_im]
          ring
        · have hnone : (List.replicate n (0 : ℝ)).get? k = none :=
            List.get?_eq_none.mpr (by simp; omega)
          rw [bin_eq hrz2, bin_eq hrx2, bin_eq hry2, hzfr k (by omega),
            hxfr k (by omega), hyfr k (by omega), hnone]
          rfl

/-- Witness for C7 at `a = 2`, `b = 3`, `x = (5)`, `y = (7)`, `n = 1 = 2^0`. -/
theorem transforms_linear_witness :
    (bin (dft (List.zipWith (fun u v => 2 * u + 3 * v) [(5 : ℝ)] [(7 : ℝ)])
        (List.replicate 1 0) 1) 0 =
      Option.map₂ (fun p q => 2 * p + 3 * q)
        (bin (dft [(5 : ℝ)] (List.replicate 1 0) 1) 0)
        (bin (dft [(7 : ℝ)] (List.replicate 1 0) 1) 0)) ∧
    (bin (fft (List.zipWith (fun u v => 2 * u + 3 * v) [(5 : ℝ)] [(7 : ℝ)])
        (List.replicate 1 0) 1) 0 =
      Option.map₂ (fun p q => 2 * p + 3 * q)
        (bin (fft [(5 : ℝ)] (List.replicate 1 0) 1) 0)
        (bin (fft [(7 : ℝ)] (List.replicate 1 0) 1) 0)) :=
  ⟨(transforms_linear 2 3 [(5 : ℝ)] [(7 : ℝ)] 1 (by simp) (by simp)).1 0,
   (transforms_linear 2 3 [(5 : ℝ)] [(7 : ℝ)] 1 (by simp) (by simp)).2 0
     (by norm_num) 0⟩

end Minifft
